import Mathlib

/-!
Verification of the PropGPT frontend's response-content interpreters.

The source under scrutiny is JavaScript:
* `parseMarkdownTable` and the chart-building body of the `GraphDisplay`
  component (GraphDisplay.jsx),
* `parseComparisonContent` and the `renderMarkdown` string normalization
  (ChatInterface.jsx).

Strings are modelled as `List Char` (`Str`).  JavaScript string methods
(`trim`, `split`, `startsWith`, `endsWith`, `includes`, `replace`,
`toLowerCase`, `parseFloat`) are modelled by executable Lean functions
defined below; each definition carries a comment pointing at the
JavaScript it embeds.  The whitespace class is the ASCII portion of
JavaScript's `\s` (the inputs of interest are ASCII).  `toLowerCase` is
modelled on ASCII letters (`Char.toLower`).  JavaScript numbers are
modelled as exact rationals plus signed infinity (`JsNum`); the claims
never depend on IEEE rounding, only on NaN-ness, counts, and
small-integer values, which the rational model reproduces exactly.

A JavaScript computation that can throw is modelled with `JsResult`:
`.thrown` means a TypeError escaped, `.value v` a normal return.
-/

namespace PropGPT

/-- Strings as character lists. -/
abbrev Str := List Char

/-- ASCII portion of the JavaScript `\s` class (space, tab, line feed,
carriage return, vertical tab, form feed). -/
def isWsChar (c : Char) : Bool :=
  c = ' ' || c = '\t' || c = '\n' || c = '\r' || c = '\x0b' || c = '\x0c'

/-- JavaScript `String.prototype.trim`: drop leading and trailing
whitespace. -/
def jsTrim (s : Str) : Str :=
  ((s.dropWhile isWsChar).reverse.dropWhile isWsChar).reverse

/-- `startsWithL s pre` models JavaScript `s.startsWith(pre)`. -/
def startsWithL : Str → Str → Bool
  | _, [] => true
  | [], _ :: _ => false
  | c :: cs, d :: ds => c = d && startsWithL cs ds

/-- `endsWithL s suf` models JavaScript `s.endsWith(suf)`. -/
def endsWithL (s suf : Str) : Bool :=
  startsWithL s.reverse suf.reverse

/-- `hasSubstr needle hay` models JavaScript `hay.includes(needle)`. -/
def hasSubstr (needle : Str) : Str → Bool
  | [] => startsWithL [] needle
  | c :: cs => startsWithL (c :: cs) needle || hasSubstr needle cs

/-- JavaScript `s.split(sep)` for a single-character separator: `n`
separator occurrences yield `n + 1` fragments, so the empty string
yields one empty fragment. -/
def splitOnCharJs (sep : Char) : Str → List Str
  | [] => [[]]
  | c :: cs =>
    match splitOnCharJs sep cs with
    | [] => [[]]
    | l :: ls => if c = sep then [] :: l :: ls else (c :: l) :: ls

/-- `md.split('\n')`. -/
def splitLines (s : Str) : List Str := splitOnCharJs '\n' s

/-- `line.split('|')`. -/
def splitOnPipe (s : Str) : List Str := splitOnCharJs '|' s

/-- JavaScript `s.toLowerCase()`, restricted to ASCII letters. -/
def toLowerStr (s : Str) : Str := s.map Char.toLower

/-- Result of a JavaScript computation: either a thrown TypeError or a
returned value. -/
inductive JsResult (α : Type) where
  | thrown : JsResult α
  | value : α → JsResult α
deriving DecidableEq

/-! ## Table Extractor (`parseMarkdownTable` in GraphDisplay.jsx) -/

/-- `{ headers, data }` as returned by `parseMarkdownTable`. -/
structure ParsedTable where
  headers : List Str
  data : List (List Str)
deriving DecidableEq

/-- `lines[i].trim().startsWith('|') && lines[i].trim().endsWith('|')` —
the run-detection test of the table scan. -/
def isPipeLine (l : Str) : Bool :=
  startsWithL (jsTrim l) ['|'] && endsWithL (jsTrim l) ['|']

/-- Continuation of the scan loop once `tableStart` is set: the loop
extends `tableEnd` while lines keep matching and `break`s at the first
non-matching line. -/
def takeRun : List Str → List Str
  | [] => []
  | l :: ls => if isPipeLine l then l :: takeRun ls else []

/-- The scan loop of `parseMarkdownTable`: `tableLines =
lines.slice(tableStart, tableEnd + 1)` is the first contiguous run of
pipe-delimited lines, or `none` when `tableStart` stays `-1`. -/
def findRun : List Str → Option (List Str)
  | [] => none
  | l :: ls => if isPipeLine l then some (l :: takeRun ls) else findRun ls

/-- `tableLines[i].includes('---') || tableLines[i].includes(':--')`. -/
def isDividerLine (l : Str) : Bool :=
  hasSubstr "---".data l || hasSubstr ":--".data l

/-- The divider-search loop over `i = 0 .. min(3, tableLines.length) - 1`
(the caller passes `tableLines.take 3`), returning `dividerIndex`. -/
def findDividerFrom (i : Nat) : List Str → Option Nat
  | [] => none
  | l :: ls => if isDividerLine l then some i else findDividerFrom (i + 1) ls

/-- `dividerIndex` search over the first three run lines. -/
def findDivider (ls : List Str) : Option Nat := findDividerFrom 0 ls

/-- `line.split('|').filter(c => c.trim()).map(c => c.trim())` — a
fragment is kept when its trim is truthy, that is, nonempty. -/
def parseCells (l : Str) : List Str :=
  ((splitOnPipe l).filter (fun c => !(jsTrim c).isEmpty)).map jsTrim

/-- `parseMarkdownTable(md)` from GraphDisplay.jsx.  `.value none`
models a `null` return.  `.thrown` models the TypeError raised by
`headerLines[headerLines.length - 1].split('|')` when `dividerIndex`
is `0`: `headerLines` is then empty, `headerLines[-1]` is `undefined`,
and calling `.split` on `undefined` throws. -/
def parseMarkdownTable (md : Str) : JsResult (Option ParsedTable) :=
  if md.isEmpty then .value none
  else
    let lines := splitLines md
    match findRun lines with
    | none => .value none
    | some tableLines =>
      if tableLines.length < 3 then .value none
      else
        match findDivider (tableLines.take 3) with
        | none => .value none
        | some dividerIndex =>
          match (tableLines.take dividerIndex).getLast? with
          | none => .thrown
          | some lastHeaderLine =>
            let headers := parseCells lastHeaderLine
            let data :=
              ((tableLines.drop (dividerIndex + 1)).map parseCells).filter
                (fun row => row.length == headers.length)
            .value (some ⟨headers, data⟩)

/-! ## JavaScript number parsing (`parseFloat`) -/

/-- A non-NaN JavaScript number: an exact rational (standing in for a
finite double) or a signed infinity.  `inf true` is `-Infinity`. -/
inductive JsNum where
  | fin : ℚ → JsNum
  | inf : Bool → JsNum
deriving DecidableEq

/-- Decimal value of a digit string. -/
def digitsVal (ds : Str) : Nat :=
  ds.foldl (fun acc c => acc * 10 + (c.toNat - '0'.toNat)) 0

/-- Exact value of a parsed decimal literal with sign `neg`, scaled
mantissa `scaled` (the integer and fraction digits read as one
integer), fraction length `scale`, and decimal exponent `expVal`:
`± scaled * 10 ^ expVal / 10 ^ scale`, built with one `mkRat`. -/
def jsFinValue (neg : Bool) (scaled : Nat) (scale : Nat) (expVal : Int) : ℚ :=
  let sgn : Int := if neg then -1 else 1
  match expVal with
  | .ofNat e => mkRat (sgn * ((scaled * 10 ^ e : Nat) : Int)) (10 ^ scale)
  | .negSucc e => mkRat (sgn * (scaled : Int)) (10 ^ scale * 10 ^ (e + 1))

/-- Unsigned digit run of an exponent part: its value, or `0` when the
run is empty (then the exponent part is not a valid continuation of
the literal, `parseFloat` stops before the `e`, and the exponent
contributes nothing). -/
def expCore (d : Str) : Int :=
  if (d.takeWhile Char.isDigit).isEmpty then 0
  else (digitsVal (d.takeWhile Char.isDigit) : Int)

/-- The exponent part of a decimal literal after the `e`/`E`: an
optional sign and a digit run (`-0 = 0`, so negating the empty-run
value is harmless). -/
def parseExp (r : Str) : Int :=
  match r with
  | [] => 0
  | c :: d =>
    if c = '-' then -expCore d
    else if c = '+' then expCore d
    else expCore (c :: d)

/-- The optional fraction after the integer digits: when the remainder
starts with `.`, its digit run is the fraction and what follows is the
rest; otherwise there is no fraction and the remainder is untouched. -/
def fracSplit (rest1 : Str) : Str × Str :=
  match rest1 with
  | [] => ([], [])
  | c :: r =>
    if c = '.' then (r.takeWhile Char.isDigit, r.dropWhile Char.isDigit)
    else ([], c :: r)

/-- The optional exponent: only consulted when the remainder starts
with `e` or `E`. -/
def expOf (rest2 : Str) : Int :=
  match rest2 with
  | [] => 0
  | c :: r => if c = 'e' ∨ c = 'E' then parseExp r else 0

/-- `parseFloat` after the optional sign has been consumed: either
`Infinity`, or a decimal literal `digits [. digits] [e sign digits]`
read as the longest valid prefix; at least one digit must appear in the
integer or fraction part, otherwise the result is NaN (`none`). -/
def jsParseUnsigned (neg : Bool) (u : Str) : Option JsNum :=
  if startsWithL u "Infinity".data then some (.inf neg)
  else
    let intPart := u.takeWhile Char.isDigit
    let fracPart := (fracSplit (u.dropWhile Char.isDigit)).1
    let rest2 := (fracSplit (u.dropWhile Char.isDigit)).2
    if intPart.isEmpty && fracPart.isEmpty then none
    else
      some (.fin (jsFinValue neg (digitsVal (intPart ++ fracPart)) fracPart.length (expOf rest2)))

/-- JavaScript `parseFloat(s)`: skip leading whitespace, read an
optional sign, then the longest valid `Infinity`-or-decimal literal
prefix; `none` models a NaN result. -/
def jsParseFloat (s : Str) : Option JsNum :=
  match s.dropWhile isWsChar with
  | [] => jsParseUnsigned false []
  | c :: r =>
    if c = '-' then jsParseUnsigned true r
    else if c = '+' then jsParseUnsigned false r
    else jsParseUnsigned false (c :: r)

/-- `value.replace(/,/g, '')`. -/
def stripCommas (s : Str) : Str := s.filter (fun c => !(c = ','))

/-! ## Chart Selector (the body of `GraphDisplay` after the parse) -/

/-- `/^\d+\s*-\s*\d+$/.test(value)` — the `isRange` helper.  The
character classes `\d`, `\s` and the literal `-` are pairwise disjoint,
so the greedy reading needs no backtracking. -/
def isRange (s : Str) : Bool :=
  let t1 := s.dropWhile Char.isDigit
  !(s.takeWhile Char.isDigit).isEmpty &&
    match t1.dropWhile isWsChar with
    | '-' :: t3 =>
      let t4 := t3.dropWhile isWsChar
      !(t4.takeWhile Char.isDigit).isEmpty && (t4.dropWhile Char.isDigit).isEmpty
    | _ => false

/-- One entry of the `datasets` array: a numeric column's header, its
parsed values, and its column index. -/
structure Dataset where
  label : Str
  data : List JsNum
  columnIndex : Nat
deriving DecidableEq

/-- The numeric-column loop: for `i = 1 .. headers.length - 1`, the
column is kept iff `parseFloat(row[i].replace(/,/g, ''))` is non-NaN
for every row; its values are those parses.  Rows always have exactly
`headers.length` fields (proved below), so the `getD` default is never
consulted. -/
def numericDatasets (t : ParsedTable) : List Dataset :=
  ((List.range t.headers.length).drop 1).filterMap (fun i =>
    if t.data.all (fun row => (jsParseFloat (stripCommas (row.getD i []))).isSome)
    then some ⟨t.headers.getD i [],
               t.data.map (fun row =>
                 (jsParseFloat (stripCommas (row.getD i []))).getD (.fin 0)), i⟩
    else none)

/-- `labels.some(label => isRange(label))` where `labels` are the
first cells; `isRange(undefined)` coerces `undefined` to the string
`"undefined"`, which does not match, hence `false` on a missing cell. -/
def hasRangeLabels (t : ParsedTable) : Bool :=
  t.data.any (fun row =>
    match row.head? with
    | some l => isRange l
    | none => false)

/-- Chart type tags. -/
inductive ChartKind where
  | bar | line | pie | doughnut | scatter
deriving DecidableEq

/-- One labelled series of a cartesian chart, with its round-robin
palette index (`i % chartColors.length`). -/
structure ChartSeries where
  label : Str
  data : List JsNum
  colorIdx : Nat
deriving DecidableEq

/-- The `data` field of a chart config: row labels plus series for
bar/line/pie/doughnut, or a point-set label plus (x, y) points for
scatter. -/
inductive ChartData where
  | cartesian : List (Option Str) → List ChartSeries → ChartData
  | scatterPoints : Str → List (JsNum × JsNum) → ChartData
deriving DecidableEq

/-- One chart descriptor pushed onto the `charts` array. -/
structure Chart where
  type : ChartKind
  title : Str
  chartData : ChartData
deriving DecidableEq

/-- `chartColors.length`. -/
def chartColorCount : Nat := 10

/-- `datasets.map((ds, i) => ({label: ds.label, data: ds.data,
backgroundColor: chartColors[i % chartColors.length], ...}))` — the
series arrays of the bar and line configs, with the palette index made
explicit. -/
def mkSeriesFrom (i : Nat) : List Dataset → List ChartSeries
  | [] => []
  | d :: ds => ⟨d.label, d.data, i % chartColorCount⟩ :: mkSeriesFrom (i + 1) ds

/-- Series list starting at palette index 0. -/
def mkSeries (ds : List Dataset) : List ChartSeries := mkSeriesFrom 0 ds

/-- The chart-construction block of `GraphDisplay`: given `tableData`,
compute `labels` and `datasets`, return `null` (here `[]`) when no
column is numeric, then push histogram + optional scatter for
range-shaped labels, or bar, line, pie, doughnut for continuous ones.
For pie and doughnut the single JavaScript dataset has no `label`
field and uses the whole palette; both are modelled as an empty label
and palette index 0. -/
def buildCharts (t : ParsedTable) : List Chart :=
  let labels : List (Option Str) := t.data.map List.head?
  let datasets := numericDatasets t
  if datasets.length = 0 then []
  else if hasRangeLabels t then
    ⟨.bar, "Distribution (Histogram)".data, .cartesian labels (mkSeries datasets)⟩ ::
      (match datasets with
       | d0 :: d1 :: _ =>
         [⟨.scatter, "Correlation: ".data ++ d0.label ++ " vs ".data ++ d1.label,
           .scatterPoints "Data Points".data
             ((List.range t.data.length).map (fun idx =>
               (d0.data.getD idx (.fin 0), d1.data.getD idx (.fin 0))))⟩]
       | _ => [])
  else
    ⟨.bar, "Comparison (Bar)".data, .cartesian labels (mkSeries datasets)⟩ ::
    ⟨.line, "Trend (Line)".data, .cartesian labels (mkSeries datasets)⟩ ::
      (match datasets with
       | d0 :: _ =>
         [⟨.pie, "Distribution - ".data ++ d0.label,
           .cartesian labels [⟨[], d0.data, 0⟩]⟩,
          ⟨.doughnut, "Proportion - ".data ++ d0.label,
           .cartesian labels [⟨[], d0.data, 0⟩]⟩]
       | [] => [])

/-- The component's early return `if (!tableData ||
tableData.data.length === 0) return null` followed by the chart
build: the Chart Selector as it actually runs on a parsed table. -/
def chartSelector (t : ParsedTable) : List Chart :=
  if t.data.length = 0 then [] else buildCharts t

/-- Whole `GraphDisplay` pipeline on the message content: parse, bail
out on `null` or an empty table, otherwise build charts; the render
keeps `charts.slice(0, 4)`. -/
def graphDisplayCharts (content : Str) : JsResult (List Chart) :=
  match parseMarkdownTable content with
  | .thrown => .thrown
  | .value none => .value []
  | .value (some t) => .value ((chartSelector t).take 4)

/-- Cartesian series value lists of a chart (empty for scatter). -/
def chartCartesianSeries (c : Chart) : List (List JsNum) :=
  match c.chartData with
  | .cartesian _ ss => ss.map (fun s => s.data)
  | .scatterPoints _ _ => []

/-! ## Comparison Splitter (`parseComparisonContent` in ChatInterface.jsx)

The heading test is
`trimmedLine.match(/^(?:###|\[|\*\*)\s*(.*?)\s*(?:\]|\*\*|$)/)`.
Its matching semantics, derived from the regex engine's leftmost /
greedy-first / lazy-shortest rules:

* the line must start with one of the openers `###`, `[`, `**`
  (their first characters differ, so at most one applies); with an
  opener present the `$` alternative of the closer group guarantees a
  match, so `headerMatch` is non-null iff an opener is present;
* the capture `(.*?)` extends lazily until the closer group can match:
  the matched closer is the first `]` or `**` occurring after the
  opener, or the end of the line when neither occurs; the `\s*` on
  both sides of the capture strip whitespace that the subsequent
  `.trim()` in the code would strip anyway, so the code's
  `headerMatch[1].trim()` equals the text between the opener and the
  first closer, trimmed. -/

/-- The capture region: text up to the first `]` or `**` (or all of it). -/
def upToCloser : Str → Str
  | [] => []
  | c :: cs =>
    if c = ']' then []
    else if startsWithL (c :: cs) "**".data then []
    else c :: upToCloser cs

/-- `trimmedLine.match(regex)` reduced to its capture group: `some`
exactly when the heading regex matches, carrying the (untrimmed)
capture region. -/
def headerCapture (t : Str) : Option Str :=
  if startsWithL t "###".data then some (upToCloser (t.drop 3))
  else if startsWithL t "[".data then some (upToCloser (t.drop 1))
  else if startsWithL t "**".data then some (upToCloser (t.drop 2))
  else none

/-- `normalizedItems.indexOf(potentialItem)`. -/
def idxOfStr (x : Str) : List Str → Option Nat
  | [] => none
  | y :: ys => if y = x then some 0 else (idxOfStr x ys).map (· + 1)

/-- The walk state: `currentItem`, `generalContent`, and the `sections`
object as an insertion-ordered association list. -/
structure PCCState where
  current : Option Str
  general : Str
  sections : List (Str × Str)
deriving DecidableEq

/-- Property lookup `sections[k]`. -/
def lookupSec (k : Str) : List (Str × Str) → Option Str
  | [] => none
  | p :: ps => if p.1 = k then some p.2 else lookupSec k ps

/-- `if (!sections[currentItem]) sections[currentItem] = "";` — a
missing key is inserted (at the end, JavaScript insertion order); a
present key is left as is (reassigning `""` over `""` changes
nothing). -/
def ensureKey (k : Str) (secs : List (Str × Str)) : List (Str × Str) :=
  match lookupSec k secs with
  | some _ => secs
  | none => secs ++ [(k, [])]

/-- `sections[currentItem] += line + '\n'` — append to the value of the
(unique) key `k`, keeping insertion order. -/
def appendSec (k : Str) (txt : Str) : List (Str × Str) → List (Str × Str)
  | [] => []
  | p :: ps => if p.1 = k then (p.1, p.2 ++ txt) :: ps else p :: appendSec k txt ps

/-- The non-heading branch of the loop body: append `line + '\n'` to the
current item's section when one is active, else to `generalContent`. -/
def pccAppend (st : PCCState) (line : Str) : PCCState :=
  match st.current with
  | some cur => { st with sections := appendSec cur (line ++ ['\n']) st.sections }
  | none => { st with general := st.general ++ line ++ ['\n'] }

/-- One iteration of `lines.forEach(line => ...)`: on a heading match
whose trimmed, lower-cased capture occurs in `normalizedItems`, switch
`currentItem` to the configured original-case form and `return`
without appending; otherwise append the line. -/
def pccStep (items : List Str) (st : PCCState) (line : Str) : PCCState :=
  match headerCapture (jsTrim line) with
  | some captured =>
    let potentialItem := toLowerStr (jsTrim captured)
    match idxOfStr potentialItem (items.map toLowerStr) with
    | some idx =>
      let cur := items.getD idx []
      { current := some cur, general := st.general, sections := ensureKey cur st.sections }
    | none => pccAppend st line
  | none => pccAppend st line

/-- The splitter's successful result; `foundItems =
Object.keys(sections)` is the keys of `sections` in insertion order. -/
structure ComparisonSplit where
  generalContent : Str
  sections : List (Str × Str)
deriving DecidableEq

/-- `Object.keys(sections)` in insertion order. -/
def foundItems (c : ComparisonSplit) : List Str := c.sections.map Prod.fst

/-- `parseComparisonContent(content, items)` from ChatInterface.jsx:
`null` immediately when at most one item is configured, then the
line walk, then `null` when fewer than two section keys exist. -/
def parseComparisonContent (content : Str) (items : List Str) : Option ComparisonSplit :=
  if items.length ≤ 1 then none
  else
    let st := (splitLines content).foldl (pccStep items) ⟨none, [], []⟩
    if st.sections.length < 2 then none
    else some ⟨st.general, st.sections⟩

/-! ## Text rendering normalization (`renderMarkdown` in ChatInterface.jsx)

Two chained `replace` calls:
`content.replace(/^\[(.*?)\]$/gm, '### $1')
        .replace(/### (.*?)\n(?!\n)/g, '### $1\n\n')`.

In ECMAScript regexes the carriage return `'\r'` is a LineTerminator,
exactly like `'\n'`: with the `m` flag `^` matches after and `$`
matches before either of them, and `.` matches neither.  Both
replaces therefore operate on segments delimited by `'\n'` *or*
`'\r'`, with the delimiters themselves untouched. -/

/-- Whether a line-terminator-delimited segment is entirely `[` ... `]`
(the `gm` regex `^\[(.*?)\]$` matches a whole segment: the lazy
capture backtracks until the `]` sits at the segment's end). -/
def isBracketSeg : Str → Bool
  | '[' :: rest => rest.getLast? == some ']'
  | _ => false

/-- The first `replace` on one segment: `[Something]` becomes
`### Something`. -/
def bracketRewriteSeg (l : Str) : Str :=
  match l with
  | '[' :: rest =>
    if rest.getLast? = some ']' then "### ".data ++ rest.dropLast else '[' :: rest
  | _ => l

/-- Rejoin what a single-character split produced, restoring the
separators. -/
def joinSep (sep : Char) : List Str → Str
  | [] => []
  | [l] => l
  | l :: l2 :: ls => l ++ sep :: joinSep sep (l2 :: ls)

/-- Rejoin what `split('\n')` produced. -/
def joinNl (ls : List Str) : Str := joinSep '\n' ls

/-- The first `replace` on one `'\n'`-line: since multiline `^`/`$`
also match around `'\r'` and `.` cannot cross it, each
`'\r'`-delimited segment of the line is tested and rewritten
independently, the `'\r'` characters staying in place. -/
def bracketRewriteLine (l : Str) : Str :=
  joinSep '\r' ((splitOnCharJs '\r' l).map bracketRewriteSeg)

/-- The portion of a line after its last carriage return (the whole
line when it has none). -/
def afterLastCr (l : Str) : Str :=
  (l.reverse.takeWhile (fun c => !(c = '\r'))).reverse

/-- The second `replace`, `/### (.*?)\n(?!\n)/g`, expressed over the
`'\n'`-line decomposition of the text.  Derivation from the regex
engine's scan: `### ` may start anywhere (the pattern is unanchored),
but the lazy capture `(.*?)` can cross neither `'\n'` nor `'\r'`, so
a match must consume from a `### ` occurrence through the line's
terminating `'\n'` with no carriage return in between — that is, the
occurrence must lie entirely in the portion of the line after its
last `'\r'` (`### ` contains no `'\r'`, so it cannot straddle that
boundary).  The lookahead `(?!\n)` then inspects the first character
after the terminator — the first character of the next line (a
`'\r'` there passes the lookahead), or that line's own terminator
when it is empty, or the end of the input (where the lookahead
succeeds).  Hence: a line `l` that is not the last one produces a
match iff the text after `l`'s last carriage return contains `### `
and the following line is nonempty or is the final, empty remainder;
the replacement `'### $1\n\n'` inserts exactly one newline — an
empty line — after `l`, and scanning resumes at the start of the
next line.  A `### ` on the last line never matches (no `'\n'`
follows). -/
def insertBlanksLines : List Str → List Str
  | [] => []
  | [l] => [l]
  | l :: m :: ls =>
    if hasSubstr "### ".data (afterLastCr l) && (!m.isEmpty || ls.isEmpty) then
      l :: [] :: insertBlanksLines (m :: ls)
    else l :: insertBlanksLines (m :: ls)

/-- `renderMarkdown`'s string rewrite: the per-segment bracket rewrite
followed by the blank-line insertion. -/
def renderMarkdown (content : Str) : Str :=
  joinNl (insertBlanksLines ((splitLines content).map bracketRewriteLine))

/-! ## Claim-side (specification-language) definitions

These definitions follow the wording of claims (as amended where the
original wording fails on the code); they are compared against the
source-derived definitions in the theorems below. -/

/-- Claim-side switching condition of the Comparison Splitter, written
from the amended claim: a line switches the current item iff its
trimmed form begins with `###`, `[`, or `**`, and the text following
the opener, truncated at the first `]` or `**` (or the end of the
line), trimmed and lower-cased, is an exact match for a configured
item name; the result is the first such configured item in its
original case. -/
def claimHeading (items : List Str) (line : Str) : Option Str :=
  let t := jsTrim line
  let innerOpt : Option Str :=
    if startsWithL t "###".data then some (upToCloser (t.drop 3))
    else if startsWithL t "[".data then some (upToCloser (t.drop 1))
    else if startsWithL t "**".data then some (upToCloser (t.drop 2))
    else none
  innerOpt.bind (fun x =>
    items.find? (fun it => decide (toLowerStr it = toLowerStr (jsTrim x))))

/-- A trailing string that cannot extend a numeric literal: empty, or
starting with a character that is not a digit, not `.`, not an
exponent marker, and not a sign. -/
def benignTail (rest : Str) : Prop :=
  ∀ c, rest.head? = some c →
    c.isDigit = false ∧ c ≠ '.' ∧ c ≠ 'e' ∧ c ≠ 'E' ∧ c ≠ '+' ∧ c ≠ '-'

/-! ## Helper lemmas -/

theorem mem_takeWhile_p (p : Char → Bool) :
    ∀ (l : Str) (x : Char), x ∈ l.takeWhile p → p x = true := by
  intro l
  induction l with
  | nil => intro x hx; simp [List.takeWhile] at hx
  | cons c cs ih =>
    intro x hx
    rw [List.takeWhile_cons] at hx
    by_cases hc : p c
    · rw [if_pos hc] at hx
      rcases List.mem_cons.1 hx with h | h
      · exact h ▸ hc
      · exact ih x h
    · rw [if_neg hc] at hx
      simp at hx

theorem head?_dropWhile_p (p : Char → Bool) :
    ∀ (l : Str) (c : Char), (l.dropWhile p).head? = some c → p c = false := by
  intro l
  induction l with
  | nil => intro c hc; simp [List.dropWhile] at hc
  | cons a as ih =>
    intro c hc
    rw [List.dropWhile_cons] at hc
    by_cases ha : p a
    · rw [if_pos ha] at hc
      exact ih c hc
    · rw [if_neg ha] at hc
      simp at hc
      subst hc
      exact Bool.not_eq_true _ ▸ (by simpa using ha)

theorem takeWhile_dropWhile_append (p : Char → Bool) :
    ∀ (xs ys : Str), (∀ x ∈ xs, p x = true) →
      (∀ c, ys.head? = some c → p c = false) →
      (xs ++ ys).takeWhile p = xs ∧ (xs ++ ys).dropWhile p = ys := by
  intro xs
  induction xs with
  | nil =>
    intro ys _ hy
    cases ys with
    | nil => simp [List.takeWhile, List.dropWhile]
    | cons c cs =>
      have := hy c (by simp)
      simp [List.takeWhile_cons, List.dropWhile_cons, this]
  | cons x xs ih =>
    intro ys hx hy
    have hpx : p x = true := hx x (by simp)
    have := ih ys (fun a ha => hx a (List.mem_cons_of_mem _ ha)) hy
    simp [List.takeWhile_cons, List.dropWhile_cons, hpx, this.1, this.2]

theorem takeWhile_append_stable (p : Char → Bool) :
    ∀ (xs ys : Str), (∀ c, ys.head? = some c → p c = false) →
      (xs ++ ys).takeWhile p = xs.takeWhile p := by
  intro xs
  induction xs with
  | nil =>
    intro ys hy
    cases ys with
    | nil => rfl
    | cons c cs => simp [List.takeWhile_cons, hy c (by simp)]
  | cons x xs ih =>
    intro ys hy
    by_cases hpx : p x
    · simp [List.takeWhile_cons, hpx, ih ys hy]
    · simp [List.takeWhile_cons, hpx]

theorem startsWithL_append_right :
    ∀ (u n rest : Str), startsWithL u n = true → startsWithL (u ++ rest) n = true := by
  intro u
  induction u with
  | nil =>
    intro n rest h
    cases n with
    | nil => cases rest <;> simp [startsWithL]
    | cons d ds => simp [startsWithL] at h
  | cons c cs ih =>
    intro n rest h
    cases n with
    | nil => simp [startsWithL]
    | cons d ds =>
      simp [startsWithL] at h ⊢
      exact ⟨h.1, ih ds rest h.2⟩

theorem benignTail_head (rest : Str) (h : benignTail rest) :
    ∀ c, rest.head? = some c → Char.isDigit c = false := fun c hc => (h c hc).1

theorem expCore_append (d rest : Str) (h : benignTail rest) :
    expCore (d ++ rest) = expCore d := by
  unfold expCore
  rw [takeWhile_append_stable _ d rest (benignTail_head rest h)]

theorem parseExp_append (r rest : Str) (h : benignTail rest) :
    parseExp (r ++ rest) = parseExp r := by
  cases r with
  | nil =>
    simp only [List.nil_append, parseExp]
    cases hrest : rest with
    | nil => rfl
    | cons c cs =>
      have hc := h c (by rw [hrest]; simp)
      have hd : (c :: cs).takeWhile Char.isDigit = [] := by
        simp [List.takeWhile_cons, hc.1]
      simp [hc.2.2.2.2.1, hc.2.2.2.2.2, expCore, hd]
  | cons c cs =>
    simp only [List.cons_append, parseExp]
    by_cases hcm : c = '-'
    · simp only [if_pos hcm, expCore_append cs rest h]
    · by_cases hcp : c = '+'
      · simp only [if_neg hcm, if_pos hcp, expCore_append cs rest h]
      · have : c :: (cs ++ rest) = (c :: cs) ++ rest := by simp
        simp only [if_neg hcm, if_neg hcp, this, expCore_append (c :: cs) rest h]

theorem fracSplit_append (B rest : Str) (hrest : benignTail rest) :
    fracSplit (B ++ rest) = ((fracSplit B).1, (fracSplit B).2 ++ rest) := by
  cases B with
  | nil =>
    simp only [List.nil_append, fracSplit]
    cases hr : rest with
    | nil => rfl
    | cons c cs =>
      have hc := hrest c (by rw [hr]; simp)
      simp [fracSplit, hc.2.1]
  | cons c r =>
    by_cases hc : c = '.'
    · subst hc
      simp only [List.cons_append, fracSplit, if_pos rfl]
      have hy : ∀ d, (r.dropWhile Char.isDigit ++ rest).head? = some d →
          Char.isDigit d = false := by
        intro d hd
        cases hR : r.dropWhile Char.isDigit with
        | nil =>
          rw [hR, List.nil_append] at hd
          exact (hrest d hd).1
        | cons x xs =>
          rw [hR] at hd
          simp only [List.cons_append, List.head?_cons, Option.some.injEq] at hd
          subst hd
          exact head?_dropWhile_p _ r x (by rw [hR]; simp)
      have hsplit := takeWhile_dropWhile_append Char.isDigit
        (r.takeWhile Char.isDigit) (r.dropWhile Char.isDigit ++ rest)
        (mem_takeWhile_p _ r) hy
      rw [← List.append_assoc, List.takeWhile_append_dropWhile] at hsplit
      simp [hsplit.1, hsplit.2]
    · simp [fracSplit, hc]

theorem expOf_append (rest2 rest : Str) (hrest : benignTail rest) :
    expOf (rest2 ++ rest) = expOf rest2 := by
  cases rest2 with
  | nil =>
    simp only [List.nil_append, expOf]
    cases hr : rest with
    | nil => rfl
    | cons c cs =>
      have hc := hrest c (by rw [hr]; simp)
      have h1 : ¬(c = 'e' ∨ c = 'E') := by
        rintro (h | h)
        · exact hc.2.2.1 h
        · exact hc.2.2.2.1 h
      simp [expOf, h1]
  | cons c r =>
    simp only [List.cons_append, expOf]
    by_cases hc : c = 'e' ∨ c = 'E'
    · simp [hc, parseExp_append r rest hrest]
    · simp [hc]

theorem twdw_digit_append (u rest : Str) (hrest : benignTail rest) :
    (u ++ rest).takeWhile Char.isDigit = u.takeWhile Char.isDigit ∧
      (u ++ rest).dropWhile Char.isDigit = u.dropWhile Char.isDigit ++ rest := by
  have hy : ∀ d, (u.dropWhile Char.isDigit ++ rest).head? = some d →
      Char.isDigit d = false := by
    intro d hd
    cases hR : u.dropWhile Char.isDigit with
    | nil =>
      rw [hR, List.nil_append] at hd
      exact (hrest d hd).1
    | cons x xs =>
      rw [hR] at hd
      simp only [List.cons_append, List.head?_cons, Option.some.injEq] at hd
      subst hd
      exact head?_dropWhile_p _ u x (by rw [hR]; simp)
  have hsplit := takeWhile_dropWhile_append Char.isDigit
    (u.takeWhile Char.isDigit) (u.dropWhile Char.isDigit ++ rest)
    (mem_takeWhile_p _ u) hy
  rw [← List.append_assoc, List.takeWhile_append_dropWhile] at hsplit
  exact hsplit

theorem startsWithL_cons_cons (c d : Char) (cs ds : Str) :
    startsWithL (c :: cs) (d :: ds) = (decide (c = d) && startsWithL cs ds) := rfl

theorem jsParseUnsigned_append (neg : Bool) (u rest : Str) (v : JsNum)
    (h : jsParseUnsigned neg u = some v) (hrest : benignTail rest) :
    jsParseUnsigned neg (u ++ rest) = some v := by
  by_cases hInf : startsWithL u "Infinity".data = true
  · have hInf2 := startsWithL_append_right u "Infinity".data rest hInf
    unfold jsParseUnsigned at h ⊢
    rw [if_pos hInf] at h
    rw [if_pos hInf2]
    exact h
  · have hInfF : startsWithL u "Infinity".data = false := by
      simpa using hInf
    unfold jsParseUnsigned at h
    rw [if_neg (by simp [hInfF])] at h
    simp only at h
    have hcond : ¬((u.takeWhile Char.isDigit).isEmpty
        && (fracSplit (u.dropWhile Char.isDigit)).1.isEmpty) = true := by
      intro hc
      rw [if_pos hc] at h
      exact Option.noConfusion h
    rw [if_neg hcond] at h
    -- the appended input reaches the same components
    have htd := twdw_digit_append u rest hrest
    have hfs := fracSplit_append (u.dropWhile Char.isDigit) rest hrest
    -- the appended input is not an Infinity literal either
    have hInfF2 : ¬startsWithL (u ++ rest) "Infinity".data = true := by
      cases hu : u with
      | nil =>
        exfalso
        apply hcond
        rw [hu]
        rfl
      | cons c u' =>
        have hne : c ≠ 'I' := by
          by_cases hd : Char.isDigit c = true
          · intro hc
            rw [hc] at hd
            exact absurd hd (by decide)
          · have hA : u.takeWhile Char.isDigit = [] := by
              rw [hu, List.takeWhile_cons, if_neg (by simpa using hd)]
            have hB : u.dropWhile Char.isDigit = c :: u' := by
              rw [hu, List.dropWhile_cons, if_neg (by simpa using hd)]
            by_cases hdot : c = '.'
            · rw [hdot]; decide
            · exfalso
              apply hcond
              rw [hA, hB]
              simp [fracSplit, hdot]
        rw [List.cons_append]
        have hId : ("Infinity".data : Str) = 'I' :: "nfinity".data := rfl
        rw [hId, startsWithL_cons_cons]
        simp [hne]
    unfold jsParseUnsigned
    rw [if_neg hInfF2]
    simp only
    rw [htd.1, htd.2, hfs]
    simp only
    rw [if_neg (by simpa using hcond)]
    rw [expOf_append _ rest hrest]
    exact h

theorem dropWhile_ws_append (p rest : Str) (c : Char) (r : Str)
    (hT : p.dropWhile isWsChar = c :: r) :
    (p ++ rest).dropWhile isWsChar = c :: (r ++ rest) := by
  have hws : ∀ x ∈ p.takeWhile isWsChar, isWsChar x = true := mem_takeWhile_p _ p
  have hy : ∀ d, ((c :: r) ++ rest).head? = some d → isWsChar d = false := by
    intro d hd
    simp only [List.cons_append, List.head?_cons, Option.some.injEq] at hd
    subst hd
    exact head?_dropWhile_p _ p c (by rw [hT]; simp)
  have hsplit := takeWhile_dropWhile_append isWsChar (p.takeWhile isWsChar)
    ((c :: r) ++ rest) hws hy
  rw [← hT, ← List.append_assoc, List.takeWhile_append_dropWhile] at hsplit
  rw [hsplit.2, hT, List.cons_append]

theorem jsParseFloat_append (p rest : Str) (v : JsNum)
    (h : jsParseFloat p = some v) (hrest : benignTail rest) :
    jsParseFloat (p ++ rest) = some v := by
  cases hT : p.dropWhile isWsChar with
  | nil =>
    -- all of p is whitespace; but then parseFloat p is NaN, contradiction
    exfalso
    unfold jsParseFloat at h
    rw [hT] at h
    simp only at h
    unfold jsParseUnsigned at h
    simp [startsWithL, fracSplit] at h
  | cons c r =>
    have hd := dropWhile_ws_append p rest c r hT
    unfold jsParseFloat at h ⊢
    rw [hT] at h
    rw [hd]
    simp only at h ⊢
    by_cases hm : c = '-'
    · rw [if_pos hm] at h ⊢
      exact jsParseUnsigned_append _ r rest v h hrest
    · by_cases hp : c = '+'
      · rw [if_neg hm, if_pos hp] at h ⊢
        exact jsParseUnsigned_append _ r rest v h hrest
      · rw [if_neg hm, if_neg hp] at h ⊢
        have := jsParseUnsigned_append false (c :: r) rest v h hrest
        rw [List.cons_append] at this
        exact this

theorem findRun_none (ls : List Str) (h : ∀ l ∈ ls, isPipeLine l = false) :
    findRun ls = none := by
  induction ls with
  | nil => rfl
  | cons l ls ih =>
    rw [findRun, if_neg (by simp [h l (by simp)])]
    exact ih (fun x hx => h x (List.mem_cons_of_mem _ hx))

theorem findDividerFrom_none (ls : List Str) (h : ∀ l ∈ ls, isDividerLine l = false) :
    ∀ i, findDividerFrom i ls = none := by
  induction ls with
  | nil => intro i; rfl
  | cons l ls ih =>
    intro i
    rw [findDividerFrom, if_neg (by simp [h l (by simp)])]
    exact ih (fun x hx => h x (List.mem_cons_of_mem _ hx)) (i + 1)

theorem idxOfStr_lt (x : Str) :
    ∀ (l : List Str) (i : Nat), idxOfStr x l = some i → i < l.length := by
  intro l
  induction l with
  | nil => intro i h; simp [idxOfStr] at h
  | cons y ys ih =>
    intro i h
    rw [idxOfStr] at h
    by_cases hy : y = x
    · rw [if_pos hy] at h
      simp at h
      subst h
      simp
    · rw [if_neg hy] at h
      cases hq : idxOfStr x ys with
      | none => rw [hq] at h; simp at h
      | some j =>
        rw [hq] at h
        simp at h
        have := ih j hq
        subst h
        simp
        omega

theorem getD_mem_of_lt : ∀ (l : List Str) (i : Nat), i < l.length → l.getD i [] ∈ l := by
  intro l
  induction l with
  | nil => intro i h; simp at h
  | cons y ys ih =>
    intro i h
    cases i with
    | zero => simp [List.getD]
    | succ j =>
      have : (y :: ys).getD (j + 1) [] = ys.getD j [] := by simp [List.getD]
      rw [this]
      exact List.mem_cons_of_mem _ (ih j (by simp at h; omega))

theorem find_eq_idx (items : List Str) (key : Str) :
    items.find? (fun it => decide (toLowerStr it = key)) =
      (idxOfStr key (items.map toLowerStr)).map (fun i => items.getD i []) := by
  induction items with
  | nil => rfl
  | cons it its ih =>
    by_cases hit : toLowerStr it = key
    · rw [List.find?_cons_of_pos _ (by simp [hit])]
      simp [idxOfStr, hit, List.getD]
    · rw [List.find?_cons_of_neg _ (by simp [hit])]
      simp only [List.map_cons, idxOfStr, if_neg hit]
      cases hq : idxOfStr key (its.map toLowerStr) with
      | none => simp [ih, hq]
      | some j => simp [ih, hq, List.getD]

theorem optBind_some {α β : Type} (x : α) (f : α → Option β) :
    (Option.bind (some x) f) = f x := rfl

theorem optBind_none {α β : Type} (f : α → Option β) :
    (Option.bind (none : Option α) f) = none := rfl

theorem optMap_some {α β : Type} (x : α) (f : α → β) :
    Option.map f (some x) = some (f x) := rfl

theorem claimHeading_eq (items : List Str) (line : Str) :
    claimHeading items line =
      (headerCapture (jsTrim line)).bind (fun x =>
        items.find? (fun it => decide (toLowerStr it = toLowerStr (jsTrim x)))) := rfl

theorem pccStep_switch (items : List Str) (st : PCCState) (line : Str) (k : Str)
    (h : claimHeading items line = some k) :
    pccStep items st line =
      { current := some k, general := st.general, sections := ensureKey k st.sections } := by
  rw [claimHeading_eq] at h
  cases hc : headerCapture (jsTrim line) with
  | none => rw [hc, optBind_none] at h; exact Option.noConfusion h
  | some x =>
    rw [hc, optBind_some, find_eq_idx] at h
    unfold pccStep
    rw [hc]
    simp only
    cases hi : idxOfStr (toLowerStr (jsTrim x)) (items.map toLowerStr) with
    | none => rw [hi] at h; exact Option.noConfusion h
    | some idx =>
      rw [hi, optMap_some, Option.some.injEq] at h
      subst h
      simp [List.getD]

theorem pccStep_append (items : List Str) (st : PCCState) (line : Str)
    (h : claimHeading items line = none) :
    pccStep items st line = pccAppend st line := by
  rw [claimHeading_eq] at h
  cases hc : headerCapture (jsTrim line) with
  | none => unfold pccStep; rw [hc]
  | some x =>
    rw [hc, optBind_some, find_eq_idx] at h
    unfold pccStep
    rw [hc]
    simp only
    cases hi : idxOfStr (toLowerStr (jsTrim x)) (items.map toLowerStr) with
    | some idx => rw [hi, optMap_some] at h; exact Option.noConfusion h
    | none => rfl

theorem lookupSec_none_iff (k : Str) :
    ∀ secs : List (Str × Str), lookupSec k secs = none ↔ k ∉ secs.map Prod.fst := by
  intro secs
  induction secs with
  | nil => simp [lookupSec]
  | cons p ps ih =>
    rw [lookupSec]
    by_cases hp : p.1 = k
    · simp [hp]
    · rw [if_neg hp]
      simp only [List.map_cons, List.mem_cons]
      rw [ih]
      constructor
      · rintro h (h1 | h1)
        · exact hp h1.symm
        · exact h h1
      · intro h h1
        exact h (Or.inr h1)

theorem appendSec_keys (k txt : Str) :
    ∀ secs : List (Str × Str), (appendSec k txt secs).map Prod.fst = secs.map Prod.fst := by
  intro secs
  induction secs with
  | nil => rfl
  | cons p ps ih =>
    rw [appendSec]
    by_cases hp : p.1 = k
    · simp [hp]
    · simp [hp, ih]

theorem lookupSec_appendSec_self (k txt : Str) :
    ∀ secs : List (Str × Str),
      lookupSec k (appendSec k txt secs) = (lookupSec k secs).map (fun v => v ++ txt) := by
  intro secs
  induction secs with
  | nil => rfl
  | cons p ps ih =>
    rw [appendSec]
    by_cases hp : p.1 = k
    · simp [lookupSec, hp]
    · rw [if_neg hp, lookupSec, if_neg hp, lookupSec, if_neg hp]
      exact ih

theorem lookupSec_appendSec_other (k k2 txt : Str) (hne : k2 ≠ k) :
    ∀ secs : List (Str × Str),
      lookupSec k2 (appendSec k txt secs) = lookupSec k2 secs := by
  intro secs
  induction secs with
  | nil => rfl
  | cons p ps ih =>
    rw [appendSec]
    by_cases hp : p.1 = k
    · rw [if_pos hp]
      have hp2 : ¬(p.1 = k2) := by rw [hp]; exact fun hh => hne hh.symm
      simp [lookupSec, hp2]
    · rw [if_neg hp, lookupSec, lookupSec]
      by_cases hp2 : p.1 = k2
      · simp [hp2]
      · rw [if_neg hp2, if_neg hp2]
        exact ih

theorem ensureKey_keys_sub (k : Str) (secs : List (Str × Str)) (x : Str)
    (h : x ∈ (ensureKey k secs).map Prod.fst) :
    x ∈ secs.map Prod.fst ∨ x = k := by
  unfold ensureKey at h
  cases hl : lookupSec k secs with
  | some v => rw [hl] at h; exact Or.inl h
  | none =>
    rw [hl] at h
    rw [List.map_append] at h
    rcases List.mem_append.1 h with h1 | h1
    · exact Or.inl h1
    · simp at h1
      exact Or.inr h1

theorem ensureKey_keys_nodup (k : Str) (secs : List (Str × Str))
    (h : (secs.map Prod.fst).Nodup) : ((ensureKey k secs).map Prod.fst).Nodup := by
  unfold ensureKey
  cases hl : lookupSec k secs with
  | some v => exact h
  | none =>
    have hk : k ∉ secs.map Prod.fst := (lookupSec_none_iff k secs).1 hl
    rw [List.map_append]
    simp [List.nodup_append, h, hk]

theorem pccAppend_keys (st : PCCState) (line : Str) :
    (pccAppend st line).sections.map Prod.fst = st.sections.map Prod.fst ∧
      (pccAppend st line).current = st.current := by
  unfold pccAppend
  cases st.current with
  | none => exact ⟨rfl, rfl⟩
  | some cur => exact ⟨appendSec_keys cur _ st.sections, rfl⟩

theorem walk_sections_origin (items : List Str) :
    ∀ (lines : List Str) (st : PCCState) (x : Str),
      x ∈ ((lines.foldl (pccStep items) st).sections.map Prod.fst) →
      x ∈ st.sections.map Prod.fst ∨ ∃ line ∈ lines, claimHeading items line = some x := by
  intro lines
  induction lines with
  | nil => intro st x h; exact Or.inl h
  | cons line rest ih =>
    intro st x h
    rw [List.foldl_cons] at h
    rcases ih (pccStep items st line) x h with h1 | h1
    · cases hch : claimHeading items line with
      | some k =>
        rw [pccStep_switch items st line k hch] at h1
        simp only at h1
        rcases ensureKey_keys_sub k st.sections x h1 with h2 | h2
        · exact Or.inl h2
        · exact Or.inr ⟨line, by simp, h2 ▸ hch⟩
      | none =>
        rw [pccStep_append items st line hch] at h1
        rw [(pccAppend_keys st line).1] at h1
        exact Or.inl h1
    · obtain ⟨l, hl, hcl⟩ := h1
      exact Or.inr ⟨l, List.mem_cons_of_mem _ hl, hcl⟩

theorem walk_keys_wf (items : List Str) :
    ∀ (lines : List Str) (st : PCCState),
      (∀ x ∈ st.sections.map Prod.fst, x ∈ items) →
      ((st.sections.map Prod.fst).Nodup) →
      (∀ x ∈ ((lines.foldl (pccStep items) st).sections.map Prod.fst), x ∈ items) ∧
        (((lines.foldl (pccStep items) st).sections.map Prod.fst).Nodup) := by
  intro lines
  induction lines with
  | nil => intro st h1 h2; exact ⟨h1, h2⟩
  | cons line rest ih =>
    intro st h1 h2
    rw [List.foldl_cons]
    cases hch : claimHeading items line with
    | some k =>
      rw [pccStep_switch items st line k hch]
      refine ih _ ?_ ?_
      · intro x hx
        simp only at hx
        rcases ensureKey_keys_sub k st.sections x hx with h3 | h3
        · exact h1 x h3
        · -- k is one of the configured items
          subst h3
          rw [claimHeading_eq] at hch
          cases hc : headerCapture (jsTrim line) with
          | none => rw [hc, optBind_none] at hch; exact Option.noConfusion hch
          | some y =>
            rw [hc, optBind_some] at hch
            exact List.mem_of_find?_eq_some hch
      · exact ensureKey_keys_nodup k st.sections h2
    | none =>
      rw [pccStep_append items st line hch]
      refine ih _ ?_ ?_
      · intro x hx
        rw [(pccAppend_keys st line).1] at hx
        exact h1 x hx
      · rw [(pccAppend_keys st line).1]
        exact h2

theorem splitOnCharJs_ne_nil (sep : Char) : ∀ s : Str, splitOnCharJs sep s ≠ [] := by
  intro s
  cases s with
  | nil => simp [splitOnCharJs]
  | cons c cs =>
    rw [splitOnCharJs]
    cases splitOnCharJs sep cs with
    | nil => simp
    | cons l ls =>
      by_cases hc : c = sep
      · simp [hc]
      · simp [hc]

theorem joinSep_cons_head (sep c : Char) (l : Str) (ls : List Str) :
    joinSep sep ((c :: l) :: ls) = c :: joinSep sep (l :: ls) := by
  cases ls with
  | nil => rfl
  | cons l2 ls2 => rfl

theorem joinSep_split (sep : Char) : ∀ s : Str, joinSep sep (splitOnCharJs sep s) = s := by
  intro s
  induction s with
  | nil => rfl
  | cons c cs ih =>
    rw [splitOnCharJs]
    cases hq : splitOnCharJs sep cs with
    | nil => exact absurd hq (splitOnCharJs_ne_nil sep cs)
    | cons l ls =>
      rw [hq] at ih
      show joinSep sep (if c = sep then [] :: l :: ls else (c :: l) :: ls) = c :: cs
      by_cases hc : c = sep
      · rw [if_pos hc, hc]
        show [] ++ sep :: joinSep sep (l :: ls) = sep :: cs
        rw [List.nil_append, ih]
      · rw [if_neg hc, joinSep_cons_head, ih]

theorem bracketRewriteSeg_id (l : Str) (h : isBracketSeg l = false) :
    bracketRewriteSeg l = l := by
  cases l with
  | nil => rfl
  | cons c rest =>
    by_cases hc : c = '['
    · subst hc
      rw [isBracketSeg] at h
      rw [bracketRewriteSeg]
      rw [if_neg (by simpa using h)]
    · cases c
      rename_i v hv
      rw [bracketRewriteSeg.eq_def]
      split
      · next heq =>
        exfalso
        rw [List.cons.injEq] at heq
        exact hc heq.1
      · rfl

theorem bracketRewriteLine_id (l : Str)
    (h : ∀ seg ∈ splitOnCharJs '\r' l, isBracketSeg seg = false) :
    bracketRewriteLine l = l := by
  unfold bracketRewriteLine
  have hmap : (splitOnCharJs '\r' l).map bracketRewriteSeg
      = (splitOnCharJs '\r' l).map id :=
    List.map_congr_left (fun seg hseg => bracketRewriteSeg_id seg (h seg hseg))
  rw [hmap, List.map_id, joinSep_split]

theorem insertBlanksLines_id : ∀ ls : List Str,
    (∀ l ∈ ls, hasSubstr "### ".data (afterLastCr l) = false) →
      insertBlanksLines ls = ls := by
  intro ls
  induction ls with
  | nil => intro _; rfl
  | cons l tail ih =>
    intro h
    cases tail with
    | nil => rfl
    | cons m ls2 =>
      rw [insertBlanksLines]
      rw [if_neg (by simp [h l (by simp)])]
      rw [ih (fun x hx => h x (List.mem_cons_of_mem _ hx))]

theorem numericDatasets_data_length (t : ParsedTable) :
    ∀ d ∈ numericDatasets t, d.data.length = t.data.length := by
  intro d hd
  rw [numericDatasets, List.mem_filterMap] at hd
  obtain ⟨i, _, hif⟩ := hd
  by_cases hn : t.data.all
      (fun row => (jsParseFloat (stripCommas (row.getD i []))).isSome) = true
  · rw [if_pos hn] at hif
    simp only [Option.some.injEq] at hif
    rw [← hif]
    simp
  · rw [if_neg hn] at hif
    exact absurd hif (by simp)

theorem mkSeriesFrom_mem :
    ∀ (ds : List Dataset) (i : Nat) (s : ChartSeries),
      s ∈ mkSeriesFrom i ds → ∃ d ∈ ds, s.data = d.data := by
  intro ds
  induction ds with
  | nil => intro i s hs; simp [mkSeriesFrom] at hs
  | cons d ds ih =>
    intro i s hs
    rw [mkSeriesFrom] at hs
    rcases List.mem_cons.1 hs with h | h
    · exact ⟨d, by simp, by rw [h]⟩
    · obtain ⟨d2, hd2, hdata⟩ := ih (i + 1) s h
      exact ⟨d2, List.mem_cons_of_mem _ hd2, hdata⟩

/-! ## Claims -/

/-- Claim C1.  The claim states that the Table Extractor, Chart
Selector, and Comparison Splitter are total over all string inputs and
never throw, including on strings where the divider line is the first
line of the pipe-delimited run.  The code violates this: on the input
`"|---|\n|a|\n|b|"` the run starts at line 0, the divider is found at
run index 0, `headerLines` is empty, and
`headerLines[headerLines.length - 1].split('|')` throws a TypeError
(`.split` of `undefined`).  This theorem evaluates the extractor at
that failing input and shows the thrown outcome. -/
theorem claim1_divider_first_line_throws :
    parseMarkdownTable "|---|\n|a|\n|b|".data = .thrown := by decide

/-- Claim C4, counterexample.  The claim asserts that on configured
items `["Alpha", "Beta"]` and the exact text
`"### Alpha\nfoo\n### Beta\nbar\n"` the splitter returns sections
`{Alpha: "foo\n", Beta: "bar\n"}` with empty preamble.  It does not:
the trailing newline makes `split('\n')` produce a final empty line,
which is appended (with its own newline) to Beta's section, so Beta's
section is `"bar\n\n"`, not `"bar\n"`. -/
theorem claim4_counterexample :
    parseComparisonContent "### Alpha\nfoo\n### Beta\nbar\n".data
      ["Alpha".data, "Beta".data]
    ≠ some ⟨[], [("Alpha".data, "foo\n".data), ("Beta".data, "bar\n".data)]⟩ := by
  decide

/-- Claim C4, amended.  Given configured items `["Alpha", "Beta"]` and
the text `"### Alpha\nfoo\n### Beta\nbar\n"`, the Comparison Splitter
returns sections `{Alpha: "foo\n", Beta: "bar\n\n"}` (the final empty
line produced by the trailing newline is appended to Beta), found
items `["Alpha", "Beta"]`, and an empty preamble. -/
theorem claim4_amended_example :
    parseComparisonContent "### Alpha\nfoo\n### Beta\nbar\n".data
        ["Alpha".data, "Beta".data]
      = some ⟨[], [("Alpha".data, "foo\n".data), ("Beta".data, "bar\n\n".data)]⟩
    ∧ (parseComparisonContent "### Alpha\nfoo\n### Beta\nbar\n".data
        ["Alpha".data, "Beta".data]).map foundItems
      = some ["Alpha".data, "Beta".data] := by
  constructor
  · decide
  · decide

/-- Claim C5.  For every input in which no line, after trimming, both
starts and ends with a pipe, the Table Extractor returns null; it
also returns null whenever the first contiguous run of pipe lines has
length at most 2, or no line among the first 3 lines of the run
contains `---` or `:--`. -/
theorem claim5_no_table_conditions (md : Str) :
    ((∀ l ∈ splitLines md, isPipeLine l = false) → parseMarkdownTable md = .value none)
    ∧ (∀ run, findRun (splitLines md) = some run → run.length ≤ 2 →
        parseMarkdownTable md = .value none)
    ∧ (∀ run, findRun (splitLines md) = some run →
        (∀ l ∈ run.take 3, isDividerLine l = false) →
        parseMarkdownTable md = .value none) := by
  by_cases hmd : md.isEmpty
  · exact ⟨fun _ => by simp [parseMarkdownTable, hmd],
      fun _ _ _ => by simp [parseMarkdownTable, hmd],
      fun _ _ _ => by simp [parseMarkdownTable, hmd]⟩
  · refine ⟨?_, ?_, ?_⟩
    · intro h
      simp [parseMarkdownTable, hmd, findRun_none _ h]
    · intro run hr hlen
      have h3 : run.length < 3 := by omega
      simp [parseMarkdownTable, hmd, hr, h3]
    · intro run hr hdiv
      have hfd : findDivider (run.take 3) = none := findDividerFrom_none _ hdiv 0
      by_cases hlen : run.length < 3
      · simp [parseMarkdownTable, hmd, hr, hlen]
      · simp [parseMarkdownTable, hmd, hr, hlen, hfd]

/-- Claim C5, witness: a concrete input with no pipe line, on which the
theorem's first part yields a null result. -/
theorem claim5_witness :
    (∀ l ∈ splitLines "no table in this text".data, isPipeLine l = false)
    ∧ parseMarkdownTable "no table in this text".data = .value none :=
  ⟨by decide, (claim5_no_table_conditions "no table in this text".data).1 (by decide)⟩

/-- Claim C6.  Every row of a parsed table has exactly
`headers.length` fields: rows with a deviating field count are
silently dropped by the filter; concretely, the 3-field row
`| Pune | 5000 | extra |` inside a 2-column table is excluded while
the well-formed `| Mumbai | 9000 |` row is kept. -/
theorem claim6_row_width_invariant :
    (∀ (md : Str) (t : ParsedTable), parseMarkdownTable md = .value (some t) →
      ∀ row ∈ t.data, row.length = t.headers.length)
    ∧ parseMarkdownTable
        "| City | Price |\n| --- | --- |\n| Pune | 5000 | extra |\n| Mumbai | 9000 |".data
      = .value (some ⟨["City".data, "Price".data], [["Mumbai".data, "9000".data]]⟩) := by
  constructor
  · intro md t h row hrow
    simp only [parseMarkdownTable] at h
    split at h
    · exact absurd h (by simp)
    · split at h
      · exact absurd h (by simp)
      · split at h
        · exact absurd h (by simp)
        · split at h
          · exact absurd h (by simp)
          · split at h
            · exact absurd h (by simp)
            · simp only [JsResult.value.injEq, Option.some.injEq] at h
              subst h
              simp only at hrow
              rcases List.mem_filter.1 hrow with ⟨_, hlen⟩
              simpa using hlen
  · decide

/-- Claim C6, witness: the row-width invariant applied at a concrete
parsed table. -/
theorem claim6_witness :
    parseMarkdownTable "| A | B |\n|---|\n| 1 | 2 |".data
      = .value (some ⟨["A".data, "B".data], [["1".data, "2".data]]⟩)
    ∧ ∀ row ∈ (ParsedTable.mk ["A".data, "B".data] [["1".data, "2".data]]).data,
        row.length = (ParsedTable.mk ["A".data, "B".data] [["1".data, "2".data]]).headers.length :=
  ⟨by decide,
   fun row hrow => claim6_row_width_invariant.1 "| A | B |\n|---|\n| 1 | 2 |".data
     ⟨["A".data, "B".data], [["1".data, "2".data]]⟩ (by decide) row hrow⟩

/-- Claim C8.  The Table Extractor, Comparison Splitter and chart
pipeline are pure functions of their input: invocations on equal
inputs yield structurally identical results.  (In this embedding the
three routines are Lean functions, which is faithful because the
JavaScript bodies touch only local variables — determinism then holds
definitionally.) -/
theorem claim8_determinism (md md2 : Str) (items : List Str) (h : md = md2) :
    parseMarkdownTable md = parseMarkdownTable md2
    ∧ parseComparisonContent md items = parseComparisonContent md2 items
    ∧ graphDisplayCharts md = graphDisplayCharts md2 := by
  subst h
  exact ⟨rfl, rfl, rfl⟩

/-- Claim C8, witness: determinism instantiated at a concrete input. -/
theorem claim8_witness :
    parseMarkdownTable "| a |\n|---|\n| 1 |".data
      = parseMarkdownTable "| a |\n|---|\n| 1 |".data
    ∧ parseComparisonContent "| a |\n|---|\n| 1 |".data ["x".data]
      = parseComparisonContent "| a |\n|---|\n| 1 |".data ["x".data]
    ∧ graphDisplayCharts "| a |\n|---|\n| 1 |".data
      = graphDisplayCharts "| a |\n|---|\n| 1 |".data :=
  claim8_determinism "| a |\n|---|\n| 1 |".data "| a |\n|---|\n| 1 |".data ["x".data] rfl

/-- Claim C2, counterexample.  The claim requires the trimmed line to
be *entirely* `### X`, `[X]`, or `**X**` for a switch.  The line
`"[Alpha"` is none of these (no closing bracket), so under the claim
it would be appended to the preamble, only Beta would gain a section,
and the splitter would return null.  The code instead switches on it
(the regex's closer group accepts end-of-line), producing a full
split with an empty preamble and an `Alpha` section. -/
theorem claim2_counterexample :
    parseComparisonContent "[Alpha\nfoo\n### Beta\nbar".data
        ["Alpha".data, "Beta".data]
      = some ⟨[], [("Alpha".data, "foo\n".data), ("Beta".data, "bar\n".data)]⟩ := by
  decide

/-- Claim C2, amended.  A line switches the current item iff its
trimmed form begins with `###`, `[`, or `**` and the text after the
opener, truncated at the first `]` or `**` (or end of line), trimmed
and lower-cased, exactly matches a configured item name (no closing
delimiter is required and text after the closer is ignored); on a
switch the heading line is appended to no accumulator (the matched
item merely gains an empty section if it had none), and every other
line, suffixed with a newline, is appended to exactly one of the
preamble or the active item's section; consequently every section of
a successful split originates from some switching line of the text. -/
theorem claim2_amended_switch_characterization :
    (∀ (items : List Str) (st : PCCState) (line : Str) (k : Str),
        claimHeading items line = some k →
        pccStep items st line =
          { current := some k, general := st.general,
            sections := ensureKey k st.sections })
    ∧ (∀ (items : List Str) (st : PCCState) (line : Str),
        claimHeading items line = none →
        pccStep items st line = pccAppend st line
        ∧ (pccAppend st line).current = st.current
        ∧ (st.current = none →
            pccAppend st line =
              { current := none, general := st.general ++ line ++ ['\n'],
                sections := st.sections })
        ∧ (∀ k v, st.current = some k → lookupSec k st.sections = some v →
            (pccAppend st line).general = st.general
            ∧ lookupSec k (pccAppend st line).sections = some (v ++ (line ++ ['\n']))
            ∧ ∀ k2, k2 ≠ k →
                lookupSec k2 (pccAppend st line).sections = lookupSec k2 st.sections))
    ∧ (∀ (items : List Str) (content : Str) (r : ComparisonSplit),
        parseComparisonContent content items = some r →
        ∀ p ∈ r.sections, ∃ line ∈ splitLines content,
          claimHeading items line = some p.1) := by
  refine ⟨pccStep_switch, ?_, ?_⟩
  · intro items st line h
    obtain ⟨cur, g, secs⟩ := st
    refine ⟨pccStep_append items _ line h, ?_, ?_, ?_⟩
    · cases cur <;> rfl
    · intro hcur
      simp only at hcur
      subst hcur
      rfl
    · intro k v hcur hv
      simp only at hcur
      subst hcur
      refine ⟨rfl, ?_, ?_⟩
      · simp only at hv
        show lookupSec k (appendSec k (line ++ ['\n']) secs)
          = some (v ++ (line ++ ['\n']))
        rw [lookupSec_appendSec_self, hv, optMap_some]
      · intro k2 hk2
        exact lookupSec_appendSec_other k k2 _ hk2 secs
  · intro items content r h
    simp only [parseComparisonContent] at h
    split at h
    · exact absurd h (by simp)
    · split at h
      · exact absurd h (by simp)
      · simp only [Option.some.injEq] at h
        subst h
        intro p hp
        have hmem := List.mem_map_of_mem Prod.fst hp
        rcases walk_sections_origin items (splitLines content) ⟨none, [], []⟩ p.1 hmem
          with h1 | h1
        · simp at h1
        · exact h1

/-- Claim C2, witness: the switch branch instantiated at a concrete
heading line and the empty walk state. -/
theorem claim2_witness :
    claimHeading ["Beta".data] "### Beta".data = some "Beta".data
    ∧ pccStep ["Beta".data] ⟨none, [], []⟩ "### Beta".data
      = ⟨some "Beta".data, [], ensureKey "Beta".data []⟩ :=
  ⟨by decide,
   claim2_amended_switch_characterization.1 ["Beta".data] ⟨none, [], []⟩
     "### Beta".data "Beta".data (by decide)⟩

/-- Claim C3, counterexample.  The claim says the splitter returns
null if fewer than 2 distinct items *received any content*.  On
`"### Alpha\n### Beta"` both items are matched as headings but neither
receives a single content line, yet the code returns a split with two
empty sections: the `< 2` test counts matched heading keys, not items
that received content. -/
theorem claim3_counterexample :
    parseComparisonContent "### Alpha\n### Beta".data ["Alpha".data, "Beta".data]
      = some ⟨[], [("Alpha".data, []), ("Beta".data, [])]⟩ := by
  decide

/-- Claim C3, amended.  The splitter returns null immediately when
fewer than 2 item names are configured, and returns null unless at
least 2 distinct items were *matched as headings* during the walk (a
matched item whose section stays empty still counts); a successful
split carries at least 2 sections, keyed by distinct configured
items. -/
theorem claim3_amended_no_split_conditions (content : Str) (items : List Str) :
    (items.length ≤ 1 → parseComparisonContent content items = none)
    ∧ (∀ r, parseComparisonContent content items = some r →
        2 ≤ r.sections.length
        ∧ (∀ x ∈ foundItems r, x ∈ items)
        ∧ (foundItems r).Nodup) := by
  constructor
  · intro h
    simp [parseComparisonContent, h]
  · intro r h
    simp only [parseComparisonContent] at h
    split at h
    · exact absurd h (by simp)
    · split at h
      · exact absurd h (by simp)
      · next hlen =>
        simp only [Option.some.injEq] at h
        subst h
        have hw := walk_keys_wf items (splitLines content) ⟨none, [], []⟩
          (by simp) (by simp)
        refine ⟨Nat.le_of_not_lt hlen, ?_, ?_⟩
        · intro x hx
          exact hw.1 x (by simpa [foundItems] using hx)
        · simpa [foundItems] using hw.2

/-- Claim C3, witness: a single configured item forces a null result
on a concrete text. -/
theorem claim3_witness :
    (["Solo".data] : List Str).length ≤ 1
    ∧ parseComparisonContent "any\ntext".data ["Solo".data] = none :=
  ⟨by decide,
   (claim3_amended_no_split_conditions "any\ntext".data ["Solo".data]).1 (by decide)⟩

/-- Claim C7, counterexample.  The claim quantifies over every parsed
table with Continuous label shape and at least one numeric column,
promising 4 descriptors.  A parsed table with zero data rows (the
extractor returns `{headers, data: []}` when every candidate row is
dropped) has Continuous shape and a (vacuously) numeric column, yet
the component bails out on `tableData.data.length === 0` and produces
no charts. -/
theorem claim7_counterexample :
    numericDatasets ⟨["City".data, "Price".data], []⟩ ≠ []
    ∧ hasRangeLabels ⟨["City".data, "Price".data], []⟩ = false
    ∧ chartSelector ⟨["City".data, "Price".data], []⟩ = [] := by
  refine ⟨by decide, by decide, by decide⟩

/-- Claim C7, amended.  For every parsed table with N ≥ 1 data rows:
with Continuous label shape and at least one numeric column the Chart
Selector produces exactly Bar, Line, Pie, Doughnut in order, each
cartesian series holding N values; with Range shape it produces Bar,
plus Scatter iff at least 2 columns are numeric, the Scatter pairing
the first numeric column's value with the second's at each row index;
with no numeric column it produces no charts.  (A table with zero
data rows produces no charts regardless — the counterexample above —
hence the N ≥ 1 hypothesis.) -/
theorem claim7_amended_chart_policy (t : ParsedTable) (N : Nat)
    (hN : t.data.length = N) (hpos : 1 ≤ N) :
    (numericDatasets t = [] → chartSelector t = [])
    ∧ (numericDatasets t ≠ [] → hasRangeLabels t = false →
        (chartSelector t).map Chart.type
            = [ChartKind.bar, ChartKind.line, ChartKind.pie, ChartKind.doughnut]
        ∧ ∀ c ∈ chartSelector t, ∀ s ∈ chartCartesianSeries c, s.length = N)
    ∧ (numericDatasets t ≠ [] → hasRangeLabels t = true →
        ((chartSelector t).map Chart.type
            = if 2 ≤ (numericDatasets t).length
              then [ChartKind.bar, ChartKind.scatter] else [ChartKind.bar])
        ∧ (∀ d0 d1 ds, numericDatasets t = d0 :: d1 :: ds →
            ∃ c ∈ chartSelector t,
              c.chartData = ChartData.scatterPoints "Data Points".data
                ((List.range N).map (fun idx =>
                  (d0.data.getD idx (.fin 0), d1.data.getD idx (.fin 0)))))
        ∧ ∀ c ∈ chartSelector t, ∀ s ∈ chartCartesianSeries c, s.length = N) := by
  have hsel : chartSelector t = buildCharts t := by
    unfold chartSelector
    rw [if_neg (by omega)]
  have hdl : ∀ d ∈ numericDatasets t, d.data.length = N := by
    intro d hd
    rw [numericDatasets_data_length t d hd, hN]
  refine ⟨?_, ?_, ?_⟩
  · intro hnd
    rw [hsel]
    simp only [buildCharts]
    rw [if_pos (by rw [hnd]; rfl)]
  · intro hnd hrange
    cases hds : numericDatasets t with
    | nil => exact absurd hds hnd
    | cons d0 ds =>
      rw [hsel]
      simp only [buildCharts]
      rw [if_neg (by rw [hds]; simp), if_neg (by simp [hrange]), hds]
      constructor
      · simp
      · intro c hc s hs
        simp only [List.mem_cons, List.not_mem_nil, or_false] at hc
        rcases hc with hc | hc | hc | hc <;> subst hc <;>
          simp only [chartCartesianSeries] at hs
        · rcases List.mem_map.1 hs with ⟨cs, hcs, hdata⟩
          obtain ⟨d, hd, hdd⟩ := mkSeriesFrom_mem _ 0 cs hcs
          rw [← hdata, hdd]
          exact hdl d (hds ▸ hd)
        · rcases List.mem_map.1 hs with ⟨cs, hcs, hdata⟩
          obtain ⟨d, hd, hdd⟩ := mkSeriesFrom_mem _ 0 cs hcs
          rw [← hdata, hdd]
          exact hdl d (hds ▸ hd)
        · simp at hs
          rw [hs]
          exact hdl d0 (hds ▸ List.mem_cons_self _ _)
        · simp at hs
          rw [hs]
          exact hdl d0 (hds ▸ List.mem_cons_self _ _)
  · intro hnd hrange
    cases hds : numericDatasets t with
    | nil => exact absurd hds hnd
    | cons d0 ds =>
      rw [hsel]
      simp only [buildCharts]
      rw [if_neg (by rw [hds]; simp), if_pos (by simp [hrange]), hds]
      refine ⟨?_, ?_, ?_⟩
      · cases ds with
        | nil => simp
        | cons d1 ds2 => simp
      · intro e0 e1 es he
        injection he with he0 htail
        subst he0
        subst htail
        rw [hN]
        exact ⟨_, List.mem_cons_of_mem _ (List.mem_cons_self _ _), rfl⟩
      · intro c hc s hs
        cases ds with
        | nil =>
          simp at hc
          subst hc
          simp only [chartCartesianSeries] at hs
          rcases List.mem_map.1 hs with ⟨cs, hcs, hdata⟩
          obtain ⟨d, hd, hdd⟩ := mkSeriesFrom_mem _ 0 cs hcs
          rw [← hdata, hdd]
          exact hdl d (hds ▸ hd)
        | cons d1 ds2 =>
          simp at hc
          rcases hc with hc | hc
          · subst hc
            simp only [chartCartesianSeries] at hs
            rcases List.mem_map.1 hs with ⟨cs, hcs, hdata⟩
            obtain ⟨d, hd, hdd⟩ := mkSeriesFrom_mem _ 0 cs hcs
            rw [← hdata, hdd]
            exact hdl d (hds ▸ hd)
          · subst hc
            simp [chartCartesianSeries] at hs

/-- Claim C7, witness: a one-row continuous table on which the amended
policy yields the four descriptors. -/
theorem claim7_witness :
    (ParsedTable.mk ["City".data, "Price".data] [["Pune".data, "5".data]]).data.length = 1
    ∧ (chartSelector ⟨["City".data, "Price".data], [["Pune".data, "5".data]]⟩).map Chart.type
      = [ChartKind.bar, ChartKind.line, ChartKind.pie, ChartKind.doughnut] :=
  ⟨by decide,
   ((claim7_amended_chart_policy
       ⟨["City".data, "Price".data], [["Pune".data, "5".data]]⟩ 1
       (by decide) (by decide)).2.1 (by decide) (by decide)).1⟩

/-- Claim C9, counterexample.  The claim allows a blank-line insertion
only after a heading line (one beginning `### `) and no other rewrite.
The input `"foo ### bar\nbaz"` contains no heading line and no
bracket-only line, so under the claim it would be returned unchanged;
the code's unanchored `/### (.*?)\n(?!\n)/g` matches the mid-line
`### ` and inserts a blank line. -/
theorem claim9_counterexample :
    renderMarkdown "foo ### bar\nbaz".data ≠ "foo ### bar\nbaz".data := by
  decide

/-- Claim C9, amended.  Carriage returns count as regex line
terminators: the normalization rewrites every `'\n'`- or
`'\r'`-delimited segment that is exactly `[Something]` to
`### Something` (delimiters preserved); the blank-line insertion
triggers on every line whose text after its last carriage return
contains `### ` — anywhere in that final portion, not only at line
start — inserting one blank line after that line when the following
line is nonempty (or when the line's newline ends the input); text
containing no bracket-only segment and no such `### ` occurrence is
returned unchanged.  The concrete equations exercise both rewrites,
the mid-line trigger, and the three carriage-return boundaries: a
`[x]` segment closed by `'\r'` is rewritten, a `'\r'` between a
`### ` and the newline blocks the insertion, and a bracket pair
spanning a `'\r'` is not rewritten. -/
theorem claim9_amended_normalization :
    (∀ s : Str,
        (∀ l ∈ splitLines s, ∀ seg ∈ splitOnCharJs '\r' l, isBracketSeg seg = false) →
        (∀ l ∈ splitLines s, hasSubstr "### ".data (afterLastCr l) = false) →
        renderMarkdown s = s)
    ∧ renderMarkdown "[Hello]\nworld".data = "### Hello\n\nworld".data
    ∧ renderMarkdown "### A\nB".data = "### A\n\nB".data
    ∧ renderMarkdown "### A\n\nB".data = "### A\n\nB".data
    ∧ renderMarkdown "foo ### bar\nbaz".data = "foo ### bar\n\nbaz".data
    ∧ renderMarkdown "[x]\r\ny".data = "### x\r\ny".data
    ∧ renderMarkdown "x ### y\rz\nw".data = "x ### y\rz\nw".data
    ∧ renderMarkdown "[a\rb]".data = "[a\rb]".data := by
  refine ⟨?_, by decide, by decide, by decide, by decide, by decide, by decide, by decide⟩
  intro s h1 h2
  unfold renderMarkdown
  have hmap : (splitLines s).map bracketRewriteLine = (splitLines s).map id :=
    List.map_congr_left (fun l hl => bracketRewriteLine_id l (h1 l hl))
  rw [hmap, List.map_id, insertBlanksLines_id _ h2]
  exact joinSep_split '\n' s

/-- Claim C9, witness: the no-op characterization applied at a
concrete two-line text with no heading markers. -/
theorem claim9_witness :
    (∀ l ∈ splitLines "hello\nworld".data, ∀ seg ∈ splitOnCharJs '\r' l,
        isBracketSeg seg = false)
    ∧ (∀ l ∈ splitLines "hello\nworld".data,
        hasSubstr "### ".data (afterLastCr l) = false)
    ∧ renderMarkdown "hello\nworld".data = "hello\nworld".data :=
  ⟨by decide, by decide,
   claim9_amended_normalization.1 "hello\nworld".data (by decide) (by decide)⟩

/-- Claim C10.  Numeric classification accepts cells that merely begin
with a number: appending a tail that cannot extend a numeric literal
never changes a successful `parseFloat` result (so `"12 units"`
parses as `12`), a column of such cells is classified numeric, and
only the prefix value enters the chart series — shown concretely on a
one-row table whose value cell is `"12 units"`. -/
theorem claim10_numeric_prefix :
    (∀ (p rest : Str) (v : JsNum), jsParseFloat p = some v → benignTail rest →
        jsParseFloat (p ++ rest) = some v)
    ∧ jsParseFloat "12 units".data = some (JsNum.fin 12)
    ∧ parseMarkdownTable "| City | Sales |\n| --- | --- |\n| Pune | 12 units |".data
      = .value (some ⟨["City".data, "Sales".data], [["Pune".data, "12 units".data]]⟩)
    ∧ (chartSelector ⟨["City".data, "Sales".data],
          [["Pune".data, "12 units".data]]⟩).map Chart.type
      = [ChartKind.bar, ChartKind.line, ChartKind.pie, ChartKind.doughnut]
    ∧ (chartSelector ⟨["City".data, "Sales".data],
          [["Pune".data, "12 units".data]]⟩).map chartCartesianSeries
      = [[[JsNum.fin 12]], [[JsNum.fin 12]], [[JsNum.fin 12]], [[JsNum.fin 12]]] := by
  exact ⟨jsParseFloat_append, by decide, by decide, by decide, by decide⟩

/-- Claim C10, witness: prefix stability applied at `"12"` with the
tail `" units"`. -/
theorem claim10_witness :
    jsParseFloat "12".data = some (JsNum.fin 12)
    ∧ benignTail " units".data
    ∧ jsParseFloat ("12".data ++ " units".data) = some (JsNum.fin 12) := by
  have hb : benignTail " units".data := by
    intro c hc
    simp only [List.head?_cons, Option.some.injEq] at hc
    subst hc
    decide
  exact ⟨by decide, hb,
    claim10_numeric_prefix.1 "12".data " units".data (JsNum.fin 12) (by decide) hb⟩

end PropGPT
